import Mathlib

/-!
Verification development for the quadtree-art engine `quart.py`
(repository justincosentino/quart).

The program recursively subdivides an image into rectangular quadrants,
each carrying an average RGB color and a mean-squared-error statistic,
with a priority queue choosing the worst quadrant to split next.

Shallow embedding conventions, matching the Python 2 source:
* Python 2 integer division `/` on nonnegative integers is `Nat` division.
* The float expressions of the source (division by `3.0`, the running
  `model_error`) are embedded as exact rationals `ℚ`.
* PIL (`Image.crop`, `Image.histogram`) is an external library, not code
  of this repository; it is modelled from its documented behavior:
  `crop((l,t,r,b))` takes the half-open region `[l,r) × [t,b)` and
  `histogram()` of an RGB image yields 768 counts, 256 per channel.
* `heapq` is likewise an external library; it is modelled by its
  documented contract (a priority queue whose pop returns the smallest
  entry), realised as a list kept sorted by the entry order.  The source
  score `-error * area ** 0.25` is represented by the order-reversed key
  `error ^ 4 * area : ℚ`; for nonnegative `error` the map
  `s ↦ s ^ 4 · sign` is strictly monotone, so the two orders agree
  (the bridge lemma `scoreKey_le_iff_rpow` below proves this in `ℝ`).
* A Python object reference held by the heap is identified by the
  quadrant data it carries together with its path from the root
  (list of child indices), which is how `QuadModel.split` relocates it.
-/

set_option maxRecDepth 100000

/-- An RGB triple; channel values of actual images lie in `0..255`. -/
abbrev RGB : Type := ℕ × ℕ × ℕ

/-- A pixel source: width, height and per-pixel RGB read access.  This is
the interface the spec assigns to the decode collaborator (`QuadImage`
wraps a PIL image and exposes exactly `width`, `height`, pixels). -/
structure Img where
  width : ℕ
  height : ℕ
  px : ℕ → ℕ → RGB

/-- Quadrant coordinates `(left, top, right, bottom)`, right-open /
bottom-open.  All quadrants of a run live inside the image rectangle,
whose corner is `(0,0)`, so natural numbers suffice. -/
structure Coords where
  l : ℕ
  t : ℕ
  r : ℕ
  b : ℕ
deriving DecidableEq, Repr

/-- Channel selector applied to a pixel: `0 ↦ red, 1 ↦ green, _ ↦ blue`. -/
def chanVal (p : RGB) : ℕ → ℕ := fun ch =>
  if ch = 0 then p.1 else if ch = 1 then p.2.1 else p.2.2

/-- Pixels of the half-open region `[l,r) × [t,b)` cropped from an image
(the region PIL's `crop` selects). -/
def regionPixels (img : Img) (c : Coords) : List RGB :=
  (List.range (c.b - c.t)).flatMap fun dy =>
    (List.range (c.r - c.l)).map fun dx => img.px (c.l + dx) (c.t + dy)

/-- Bucket `i` of the 256-bucket histogram of one channel of a cropped
region: the count of region pixels whose channel value is `i`.  Models
PIL `Image.histogram` (one 256-bucket histogram per channel). -/
def hist (img : Img) (ch : ℕ) (c : Coords) : ℕ → ℕ := fun i =>
  (regionPixels img c).countP fun p => chanVal p ch == i

/-- Quadrant.compute_area: `(b - t) * (r - l)`. -/
def Quadrant.compute_area (c : Coords) : ℕ :=
  (c.b - c.t) * (c.r - c.l)

/-- Quadrant.compute_avg_color_mse: from a 256-entry channel histogram,
the average channel value and the mean square error of that average.
Python 2 `/` on integers is floor division, hence `Nat` division; the
`(avg - i) ** 2` is computed in `ℤ` and is a perfect square, so its
absolute value is taken before squaring in `ℕ`.  `ttl` is replaced by 1
when the histogram is empty, exactly as the source guards division. -/
def Quadrant.compute_avg_color_mse (h : ℕ → ℕ) : ℕ × ℕ :=
  let ttl0 : ℕ := ((List.range 256).map h).sum
  let ttl : ℕ := if ttl0 = 0 then 1 else ttl0
  let avg : ℕ := ((List.range 256).map fun i => i * h i).sum / ttl
  let mse : ℕ :=
    ((List.range 256).map fun (i : ℕ) => ((avg : ℤ) - (i : ℤ)).natAbs ^ 2 * h i).sum / ttl
  (avg, mse)

/-- Quadrant.compute_color: per-channel averages and the error
`(r_error + g_error + b_error) / 3.0` (a float in the source, an exact
rational here). -/
def Quadrant.compute_color (img : Img) (c : Coords) : RGB × ℚ :=
  let rr := Quadrant.compute_avg_color_mse (hist img 0 c)
  let gg := Quadrant.compute_avg_color_mse (hist img 1 c)
  let bb := Quadrant.compute_avg_color_mse (hist img 2 c)
  ((rr.1, gg.1, bb.1), ((rr.2 + gg.2 + bb.2 : ℕ) : ℚ) / 3)

/-- The scalar error of a quadrant (second component of compute_color). -/
def Quadrant.error (img : Img) (c : Coords) : ℚ :=
  (Quadrant.compute_color img c).2

/-- The average color of a quadrant (first component of compute_color). -/
def Quadrant.colorOf (img : Img) (c : Coords) : RGB :=
  (Quadrant.compute_color img c).1

/-- Quadrant.is_leaf: the static minimum-size flag,
`r - l < MIN_LEAF_SIZE or b - t < MIN_LEAF_SIZE` with `MIN_LEAF_SIZE = 4`. -/
def Quadrant.is_leaf (c : Coords) : Bool :=
  decide (c.r - c.l < 4) || decide (c.b - c.t < 4)

/-- Quadrant.split, geometry part: `h_split = l + (r - l) / 2`,
`v_split = t + (b - t) / 2`, children coordinates in the fixed order
top-left, top-right, bottom-left, bottom-right. -/
def Quadrant.split (c : Coords) : List Coords :=
  let h_split := c.l + (c.r - c.l) / 2
  let v_split := c.t + (c.b - c.t) / 2
  [⟨c.l, c.t, h_split, v_split⟩,
   ⟨h_split, c.t, c.r, v_split⟩,
   ⟨c.l, v_split, h_split, c.b⟩,
   ⟨h_split, v_split, c.r, c.b⟩]

/-- The quadrant tree.  A Python quadrant's `children` list is either
empty or holds exactly four quadrants (`split` assigns
`[t_l, t_r, b_l, b_r]` and nothing else ever writes it), so the tree is
embedded with a leaf constructor and a four-child node constructor,
children in the fixed source order. -/
inductive QTree : Type where
  | leafN (c : Coords) (d : ℕ)
  | nodeN (c : Coords) (d : ℕ) (tl tr bl br : QTree)
deriving DecidableEq, Repr

/-- Coordinates stored at the root constructor of a tree. -/
def QTree.coordsOf : QTree → Coords
  | .leafN c _ => c
  | .nodeN c _ _ _ _ _ => c

/-- Depth stored at the root constructor of a tree. -/
def QTree.depthOf : QTree → ℕ
  | .leafN _ d => d
  | .nodeN _ d _ _ _ _ => d

/-- Children as a list, mirroring the Python `children` field
(empty, or the four children in order). -/
def QTree.childrenL : QTree → List QTree
  | .leafN _ _ => []
  | .nodeN _ _ a b e f => [a, b, e, f]

/-- The node `quad.split()` turns a quadrant with coordinates `c` and
depth `d` into: the same quadrant carrying four fresh leaf children over
the sub-rectangles of `Quadrant.split c`, each analyzed at depth `d + 1`,
in the order top-left, top-right, bottom-left, bottom-right. -/
def mkKids : Coords → ℕ → QTree
  | ⟨l, t, r, b⟩, d =>
      let h_split := l + (r - l) / 2
      let v_split := t + (b - t) / 2
      .nodeN ⟨l, t, r, b⟩ d
        (.leafN ⟨l, t, h_split, v_split⟩ (d + 1))
        (.leafN ⟨h_split, t, r, v_split⟩ (d + 1))
        (.leafN ⟨l, v_split, h_split, b⟩ (d + 1))
        (.leafN ⟨h_split, v_split, r, b⟩ (d + 1))

/-- In-place mutation `quad.split()` on the tree: replace the node at the
given path (list of child indices, `0..3`) by the same quadrant carrying
the four fresh children.  An out-of-range path leaves the tree unchanged
(it never occurs in a reachable state: the heap only stores paths of
live leaves). -/
def QTree.splitAt : QTree → List ℕ → QTree
  | .leafN c d, [] => mkKids c d
  | .nodeN c d _ _ _ _, [] => mkKids c d
  | .leafN c d, _ :: _ => .leafN c d
  | .nodeN c d a b e f, i :: p =>
      .nodeN c d
        (if i = 0 then a.splitAt p else a)
        (if i = 1 then b.splitAt p else b)
        (if i = 2 then e.splitAt p else e)
        (if i = 3 then f.splitAt p else f)

/-- Quadrant.get_leaf_nodes: if the quadrant has no children it is its
own only leaf; otherwise the concatenation of the children's leaves in
child order (a pre-order traversal restricted to childless nodes). -/
def QTree.leaves : QTree → List QTree
  | .leafN c d => [.leafN c d]
  | .nodeN _ _ a b e f => a.leaves ++ b.leaves ++ e.leaves ++ f.leaves

/-- All nodes of the tree in pre-order (self first, then the children
subtrees in order). -/
def QTree.nodes : QTree → List QTree
  | .leafN c d => [.leafN c d]
  | .nodeN c d a b e f => .nodeN c d a b e f :: (a.nodes ++ b.nodes ++ e.nodes ++ f.nodes)

/-- Order-reversed representative of the heap score
`-error * area ** 0.25`: for nonnegative error,
`score₁ ≤ score₂ ↔ key₂ ≤ key₁` where `key = error ^ 4 * area`. -/
def scoreKey (img : Img) (c : Coords) : ℚ :=
  Quadrant.error img c ^ 4 * (Quadrant.compute_area c : ℚ)

/-- A heap entry: the score key, the quadrant data the Python tuple's
object reference carries, and the object's position in the tree. -/
structure HEntry where
  key : ℚ
  qc : Coords
  path : List ℕ
deriving DecidableEq, Repr

/-- Insertion into the heap, modelling `heapq.heappush` by the heapq
contract: the list is kept sorted with the minimum-score (= maximum-key)
entry first, so that pop takes the head.  An entry of equal key is placed
after the existing ones (the source breaks such ties by an incidental
object comparison; no claim depends on the choice). -/
def heapInsert (e : HEntry) : List HEntry → List HEntry
  | [] => [e]
  | x :: xs => if x.key < e.key then e :: x :: xs else x :: heapInsert e xs

/-- The mutable state of a QuadModel: the owned tree, the heap (the
frontier), and the running error accumulator `model_error`. -/
structure MState where
  root : QTree
  heap : List HEntry
  model_error : ℚ
deriving DecidableEq, Repr

/-- QuadModel.push: heap-push the scored quadrant and add
`error * area` to `model_error`. -/
def QuadModel.push (img : Img) (s : MState) (qc : Coords) (p : List ℕ) : MState :=
  { s with
    heap := heapInsert ⟨scoreKey img qc, qc, p⟩ s.heap
    model_error :=
      s.model_error + Quadrant.error img qc * (Quadrant.compute_area qc : ℚ) }

/-- QuadModel.pop: remove the minimum-score (maximum-priority) entry,
subtract its `error * area` from `model_error`, and return it.  The
Python code raises IndexError on an empty heap; the embedding returns
`none` there. -/
def QuadModel.pop (img : Img) (s : MState) : Option (HEntry × MState) :=
  match s.heap with
  | [] => none
  | e :: rest =>
      some (e,
        { s with
          heap := rest
          model_error :=
            s.model_error - Quadrant.error img e.qc * (Quadrant.compute_area e.qc : ℚ) })

/-- Push a list of child quadrants in order; child `i` of the quadrant at
path `p` lives at path `p ++ [i]`. -/
def pushChildren (img : Img) : MState → List Coords → List ℕ → ℕ → MState
  | s, [], _, _ => s
  | s, c :: cs, p, i => pushChildren img (QuadModel.push img s c (p ++ [i])) cs p (i + 1)

/-- QuadModel.split, one `Step()`: pop the maximum-priority quadrant,
split it in the tree, push its four children. -/
def QuadModel.step (img : Img) (s : MState) : Option MState :=
  (QuadModel.pop img s).map fun es =>
    let e := es.1
    let s1 := es.2
    let s2 : MState := { s1 with root := s1.root.splitAt e.path }
    pushChildren img s2 (Quadrant.split e.qc) e.path 0

/-- The root coordinates: the full image bounds. -/
def rootCoords (img : Img) : Coords :=
  ⟨0, 0, img.width, img.height⟩

/-- QuadModel.__init__ (its model-visible part): build and analyze the
root quadrant at depth 0, seed `model_error` with
`root.error * root.area`, then `push(root)` (which adds the same
quantity again). -/
def initState (img : Img) : MState :=
  let rc := rootCoords img
  QuadModel.push img
    { root := .leafN rc 0
      heap := []
      model_error := Quadrant.error img rc * (Quadrant.compute_area rc : ℚ) }
    rc []

/-- The scheduler state after `k` `Step()` calls from a fresh model
(`none` once a step failed, which never happens from a real image). -/
def reachN (img : Img) : ℕ → Option MState
  | 0 => some (initState img)
  | k + 1 => (reachN img k).bind (QuadModel.step img)

/-- QuadModel.compute_average_model_error:
`model_error / (width * height)`. -/
def QuadModel.compute_average_model_error (img : Img) (s : MState) : ℚ :=
  s.model_error / ((img.width : ℚ) * (img.height : ℚ))

/-- Sum of `error * area` over the entries currently on the heap (the
quantity the spec says `totalWeightedError` tracks). -/
def heapWeightSum (img : Img) (s : MState) : ℚ :=
  (s.heap.map fun e =>
    Quadrant.error img e.qc * (Quadrant.compute_area e.qc : ℚ)).sum

/-- Concrete 2-by-1 test image: pixel (0,0) is black, pixel (1,0) is
white. -/
def bw2 : Img :=
  ⟨2, 1, fun x _ => if x = 0 then (0, 0, 0) else (255, 255, 255)⟩

/-- Concrete 8-by-8 test image from the spec scenario: the left 4x8
block is solid red (255,0,0), the right 4x8 block solid blue (0,0,255). -/
def rb8 : Img :=
  ⟨8, 8, fun x _ => if x < 4 then (255, 0, 0) else (0, 0, 255)⟩

/-- Membership of the point `(x, y)` in the half-open rectangle of `c`. -/
def containsB : Coords → ℕ → ℕ → Bool
  | ⟨l, t, r, b⟩, x, y =>
      decide (l ≤ x) && decide (x < r) && decide (t ≤ y) && decide (y < b)

/-- A coordinate rectangle is ordered: left at most right, top at most
bottom.  Every quadrant a run creates satisfies this. -/
def Coords.ordered : Coords → Prop
  | ⟨l, t, r, b⟩ => l ≤ r ∧ t ≤ b

/-- Structural well-formedness of a reachable quadrant tree: every node
has ordered coordinates, and the children of every internal node are
exactly the four sub-rectangles `Quadrant.split` computes from it. -/
def QTree.wfT : QTree → Prop
  | .leafN c _ => c.ordered
  | .nodeN c _ a b e f =>
      c.ordered ∧
      [a.coordsOf, b.coordsOf, e.coordsOf, f.coordsOf] = Quadrant.split c ∧
      a.wfT ∧ b.wfT ∧ e.wfT ∧ f.wfT

/-- Sum of the three per-channel mean-square errors of a quadrant, the
integer numerator of `error * 3`. -/
def mseSum (img : Img) (c : Coords) : ℕ :=
  (Quadrant.compute_avg_color_mse (hist img 0 c)).2 +
    (Quadrant.compute_avg_color_mse (hist img 1 c)).2 +
    (Quadrant.compute_avg_color_mse (hist img 2 c)).2

/-- Relation keeping the heap list sorted: earlier entries have a key at
least as large (equivalently, a score at most as large, so the head is
what heappop returns). -/
def hRel (a b : HEntry) : Prop := b.key ≤ a.key

/-- The state invariant every reachable scheduler state satisfies: the
heap is sorted (maximum priority first), every heap entry carries the
score key computed from its quadrant, and the tree is well-formed with
the full image rectangle at its root. -/
def SInv (img : Img) (s : MState) : Prop :=
  List.Pairwise hRel s.heap ∧
  (∀ e ∈ s.heap, e.key = scoreKey img e.qc) ∧
  s.root.wfT ∧
  s.root.coordsOf = rootCoords img

/-- The real-valued priority score of the source,
`error * area ** 0.25`, of a quadrant (the negation of the heap score). -/
noncomputable def rPriority (img : Img) (c : Coords) : ℝ :=
  (Quadrant.error img c : ℝ) * (Quadrant.compute_area c : ℝ) ^ ((1 : ℝ) / 4)

/-- Channel mean as the spec's words state it (§4.1,
`mean = Σ(i·count_i) / total`), as an exact rational quotient; written
for comparison with the source's floor-division
`compute_avg_color_mse`. -/
def specChannelMean (h : ℕ → ℕ) : ℚ :=
  ((List.range 256).map fun (i : ℕ) => (i : ℚ) * (h i : ℚ)).sum /
    ((List.range 256).map fun (i : ℕ) => (h i : ℚ)).sum

/-- The concrete channel histogram with one pixel of value 0 and one
pixel of value 255 (total = 2, exact mean 127.5). -/
def twoHist : ℕ → ℕ := fun i => if i = 0 then 1 else if i = 255 then 1 else 0

/-- Python `int()` applied to a nonnegative-or-negative rational:
truncation toward zero. -/
def pyInt (q : ℚ) : ℤ :=
  if 0 ≤ q then ⌊q⌋ else -⌊-q⌋

/-- The output pixel buffer of QuadModel.render: its declared size and
per-pixel contents.  Pixels are indexed over all of `ℤ × ℤ`; PIL clips
writes outside the canvas, which no claim depends on. -/
structure RenderOut where
  width : ℤ
  height : ℤ
  px : ℤ → ℤ → RGB

/-- One `draw.rectangle((x0, y0, x1, y1), col)` on a pixel buffer.
Models PIL ImageDraw (external library) from its documented behavior:
the filled rectangle includes both corner pixels; an inverted rectangle
(`x1 < x0` or `y1 < y0`) paints nothing. -/
def drawRect (buf : ℤ → ℤ → RGB) (x0 y0 x1 y1 : ℤ) (col : RGB) : ℤ → ℤ → RGB :=
  fun x y => if x0 ≤ x ∧ x ≤ x1 ∧ y0 ≤ y ∧ y ≤ y1 then col else buf x y

/-- The body of the render loop: draw each leaf quadrant in list order as
`(l*m + dx, t*m + dy, r*m - dx, b*m - dy)` with `dx = dy = 1`, each
coordinate truncated by `int()`, filled with the quadrant's color. -/
def drawLeaves (img : Img) (m : ℚ) : (ℤ → ℤ → RGB) → List QTree → (ℤ → ℤ → RGB)
  | buf, [] => buf
  | buf, q :: qs =>
      drawLeaves img m
        (drawRect buf
          (pyInt ((q.coordsOf.l : ℚ) * m + 1)) (pyInt ((q.coordsOf.t : ℚ) * m + 1))
          (pyInt ((q.coordsOf.r : ℚ) * m - 1)) (pyInt ((q.coordsOf.b : ℚ) * m - 1))
          (Quadrant.colorOf img q.coordsOf)) qs

/-- QuadModel.render: a new RGB canvas of size
`(int(width*scale) + dx, int(height*scale) + dy)` (PIL initializes it to
black), a background rectangle of PADDING_FILL = (0,0,0) over
`(0, 0, m_w, m_h)`, then every current leaf quadrant painted in
`get_leaf_nodes()` order.  Render reads the scheduler state and builds a
fresh buffer; it mutates nothing (in this embedding it is a pure
function of the state). -/
def QuadModel.render (img : Img) (s : MState) (m : ℚ) : RenderOut :=
  let dx : ℤ := 1
  let dy : ℤ := 1
  let m_w := pyInt ((img.width : ℚ) * m)
  let m_h := pyInt ((img.height : ℚ) * m)
  let buf0 : ℤ → ℤ → RGB := fun _ _ => (0, 0, 0)
  let buf1 := drawRect buf0 0 0 m_w m_h (0, 0, 0)
  ⟨m_w + dx, m_h + dy, drawLeaves img m buf1 s.root.leaves⟩

/-- Membership of an output pixel in the inset rectangle a leaf quadrant
is painted with: inset by the 1-unit padding on each side of its scaled
bounds (the exact rectangle `render` passes to `drawRect`). -/
def inSRect (m : ℚ) (c : Coords) (x y : ℤ) : Prop :=
  pyInt ((c.l : ℚ) * m + 1) ≤ x ∧ x ≤ pyInt ((c.r : ℚ) * m - 1) ∧
    pyInt ((c.t : ℚ) * m + 1) ≤ y ∧ y ≤ pyInt ((c.b : ℚ) * m - 1)

theorem error_eq_mseSum (img : Img) (c : Coords) :
    Quadrant.error img c = ((mseSum img c : ℕ) : ℚ) / 3 := rfl

theorem split_countP (c : Coords) (hlr : c.l ≤ c.r) (htb : c.t ≤ c.b) (x y : ℕ) :
    (Quadrant.split c).countP (fun k => containsB k x y) =
      if containsB c x y then 1 else 0 := by
  have h1 : (c.r - c.l) / 2 ≤ c.r - c.l := Nat.div_le_self _ _
  have h2 : (c.b - c.t) / 2 ≤ c.b - c.t := Nat.div_le_self _ _
  obtain ⟨l, t, r, b⟩ := c
  simp only [Quadrant.split, List.countP_cons, List.countP_nil, containsB,
    Bool.and_eq_true, decide_eq_true_eq] at *
  split_ifs <;> omega

theorem split_ordered (c : Coords) (hlr : c.l ≤ c.r) (htb : c.t ≤ c.b) :
    ∀ k ∈ Quadrant.split c, k.ordered := by
  have h1 : (c.r - c.l) / 2 ≤ c.r - c.l := Nat.div_le_self _ _
  have h2 : (c.b - c.t) / 2 ≤ c.b - c.t := Nat.div_le_self _ _
  intro k hk
  simp only [Quadrant.split, List.mem_cons, List.not_mem_nil, or_false] at hk
  rcases hk with h | h | h | h <;> subst h <;> exact ⟨by omega, by omega⟩

theorem split_area_sum (c : Coords) (hlr : c.l ≤ c.r) (htb : c.t ≤ c.b) :
    ((Quadrant.split c).map Quadrant.compute_area).sum =
      (c.r - c.l) * (c.b - c.t) := by
  have h1 : (c.r - c.l) / 2 ≤ c.r - c.l := Nat.div_le_self _ _
  have h2 : (c.b - c.t) / 2 ≤ c.b - c.t := Nat.div_le_self _ _
  simp only [Quadrant.split, List.map_cons, List.map_nil, List.sum_cons,
    List.sum_nil, Quadrant.compute_area]
  have hw : c.r - (c.l + (c.r - c.l) / 2) = (c.r - c.l) - (c.r - c.l) / 2 := by omega
  have hh : c.b - (c.t + (c.b - c.t) / 2) = (c.b - c.t) - (c.b - c.t) / 2 := by omega
  have hw2 : c.l + (c.r - c.l) / 2 - c.l = (c.r - c.l) / 2 := by omega
  have hh2 : c.t + (c.b - c.t) / 2 - c.t = (c.b - c.t) / 2 := by omega
  rw [hw, hh, hw2, hh2]
  have ew : (c.r - c.l) = (c.r - c.l) / 2 + ((c.r - c.l) - (c.r - c.l) / 2) := by omega
  have eh : (c.b - c.t) = (c.b - c.t) / 2 + ((c.b - c.t) - (c.b - c.t) / 2) := by omega
  nlinarith [ew, eh]

/-- C3: for every quadrant with ordered bounds, `Split()` computes
`h_split = left + (right - left) / 2` and `v_split = top + (bottom - top) / 2`
and produces exactly four children in the order top-left, top-right,
bottom-left, bottom-right, each analyzed at depth `depth + 1`; the
children's half-open rectangles are pairwise disjoint and cover exactly
the parent's rectangle (every point of the parent lies in exactly one
child, every point outside the parent in none), and their areas sum to
`(right - left) * (bottom - top)`. -/
theorem c3_split_geometry (c : Coords) (hlr : c.l ≤ c.r) (htb : c.t ≤ c.b) :
    Quadrant.split c =
      [⟨c.l, c.t, c.l + (c.r - c.l) / 2, c.t + (c.b - c.t) / 2⟩,
       ⟨c.l + (c.r - c.l) / 2, c.t, c.r, c.t + (c.b - c.t) / 2⟩,
       ⟨c.l, c.t + (c.b - c.t) / 2, c.l + (c.r - c.l) / 2, c.b⟩,
       ⟨c.l + (c.r - c.l) / 2, c.t + (c.b - c.t) / 2, c.r, c.b⟩] ∧
    (Quadrant.split c).length = 4 ∧
    (∀ d : ℕ, ((QTree.leafN c d).splitAt []).childrenL.map QTree.coordsOf =
        Quadrant.split c ∧
      ((QTree.leafN c d).splitAt []).childrenL.map QTree.depthOf =
        [d + 1, d + 1, d + 1, d + 1]) ∧
    (∀ x y : ℕ, (Quadrant.split c).countP (fun k => containsB k x y) =
        if containsB c x y then 1 else 0) ∧
    ((Quadrant.split c).map Quadrant.compute_area).sum =
      (c.r - c.l) * (c.b - c.t) := by
  refine ⟨rfl, rfl, ?_, fun x y => split_countP c hlr htb x y,
    split_area_sum c hlr htb⟩
  intro d
  constructor <;> rfl

theorem c3_split_geometry_witness :
    (0 ≤ 5 ∧ 0 ≤ 3) ∧
      (Quadrant.split ⟨0, 0, 5, 3⟩ =
        [⟨0, 0, 2, 1⟩, ⟨2, 0, 5, 1⟩, ⟨0, 1, 2, 3⟩, ⟨2, 1, 5, 3⟩] ∧
      (Quadrant.split ⟨0, 0, 5, 3⟩).length = 4 ∧
      (∀ d : ℕ, ((QTree.leafN ⟨0, 0, 5, 3⟩ d).splitAt []).childrenL.map QTree.coordsOf =
          Quadrant.split ⟨0, 0, 5, 3⟩ ∧
        ((QTree.leafN ⟨0, 0, 5, 3⟩ d).splitAt []).childrenL.map QTree.depthOf =
          [d + 1, d + 1, d + 1, d + 1]) ∧
      (∀ x y : ℕ, (Quadrant.split ⟨0, 0, 5, 3⟩).countP (fun k => containsB k x y) =
          if containsB ⟨0, 0, 5, 3⟩ x y then 1 else 0) ∧
      ((Quadrant.split ⟨0, 0, 5, 3⟩).map Quadrant.compute_area).sum = 5 * 3) :=
  ⟨⟨by decide, by decide⟩, by
    have h := c3_split_geometry ⟨0, 0, 5, 3⟩ (by decide) (by decide)
    simpa using h⟩

theorem Coords.ordered_def (c : Coords) : c.ordered ↔ c.l ≤ c.r ∧ c.t ≤ c.b := by
  obtain ⟨l, t, r, b⟩ := c
  exact Iff.rfl

theorem mkKids_wfT (c : Coords) (d : ℕ) (hc : c.ordered) : (mkKids c d).wfT := by
  obtain ⟨l, t, r, b⟩ := c
  obtain ⟨h1, h2⟩ := hc
  have e1 : (r - l) / 2 ≤ r - l := Nat.div_le_self _ _
  have e2 : (b - t) / 2 ≤ b - t := Nat.div_le_self _ _
  exact ⟨⟨h1, h2⟩, rfl, ⟨by omega, by omega⟩, ⟨by omega, by omega⟩,
    ⟨by omega, by omega⟩, ⟨by omega, by omega⟩⟩

theorem splitAt_coordsOf (t : QTree) (p : List ℕ) :
    (t.splitAt p).coordsOf = t.coordsOf := by
  cases t <;> cases p <;> simp [QTree.splitAt, mkKids, QTree.coordsOf]

theorem splitAt_wfT : ∀ (t : QTree) (p : List ℕ), t.wfT → (t.splitAt p).wfT
  | .leafN c d, [], hw => mkKids_wfT c d hw
  | .leafN c d, _ :: _, hw => hw
  | .nodeN c d a b e f, [], hw => mkKids_wfT c d hw.1
  | .nodeN c d a b e f, i :: p, hw => by
      obtain ⟨hc, hkids, hwa, hwb, hwe, hwf⟩ := hw
      refine ⟨hc, ?_, ?_, ?_, ?_, ?_⟩
      · rw [← hkids]
        split_ifs <;> simp [splitAt_coordsOf]
      · split_ifs with h
        · exact splitAt_wfT a p hwa
        · exact hwa
      · split_ifs with h
        · exact splitAt_wfT b p hwb
        · exact hwb
      · split_ifs with h
        · exact splitAt_wfT e p hwe
        · exact hwe
      · split_ifs with h
        · exact splitAt_wfT f p hwf
        · exact hwf

theorem leaves_eq_nodes_filter : ∀ t : QTree,
    t.leaves = t.nodes.filter fun u => u.childrenL.isEmpty
  | .leafN c d => by simp [QTree.leaves, QTree.nodes, QTree.childrenL]
  | .nodeN c d a b e f => by
      have hch : (QTree.nodeN c d a b e f).childrenL.isEmpty = false := rfl
      show a.leaves ++ b.leaves ++ e.leaves ++ f.leaves =
        List.filter (fun u => u.childrenL.isEmpty)
          (QTree.nodeN c d a b e f :: (a.nodes ++ b.nodes ++ e.nodes ++ f.nodes))
      rw [List.filter_cons, hch]
      simp only [Bool.false_eq_true, if_false, List.filter_append]
      rw [← leaves_eq_nodes_filter a, ← leaves_eq_nodes_filter b,
        ← leaves_eq_nodes_filter e, ← leaves_eq_nodes_filter f]

theorem wfT_tiles : ∀ t : QTree, t.wfT → ∀ x y : ℕ,
    t.leaves.countP (fun u => containsB u.coordsOf x y) =
      if containsB t.coordsOf x y then 1 else 0
  | .leafN c d, hw, x, y => by
      simp [QTree.leaves, QTree.coordsOf, List.countP_cons]
  | .nodeN c d a b e f, hw, x, y => by
      obtain ⟨hc, hkids, hwa, hwb, hwe, hwf⟩ := hw
      have hoc := (Coords.ordered_def c).1 hc
      have h4 := split_countP c hoc.1 hoc.2 x y
      rw [← hkids] at h4
      simp only [List.countP_cons, List.countP_nil] at h4
      simp only [QTree.leaves, List.countP_append]
      rw [wfT_tiles a hwa x y, wfT_tiles b hwb x y, wfT_tiles e hwe x y,
        wfT_tiles f hwf x y,
        show (QTree.nodeN c d a b e f).coordsOf = c from rfl]
      split_ifs at h4 ⊢ <;> omega

theorem mem_heapInsert (a e : HEntry) :
    ∀ l : List HEntry, a ∈ heapInsert e l ↔ a = e ∨ a ∈ l := by
  intro l
  induction l with
  | nil => simp [heapInsert]
  | cons x xs ih =>
      simp only [heapInsert]
      split_ifs with h
      · simp [List.mem_cons]
      · simp only [List.mem_cons, ih]
        tauto

theorem heapInsert_sorted (e : HEntry) :
    ∀ l : List HEntry, List.Pairwise hRel l → List.Pairwise hRel (heapInsert e l) := by
  intro l
  induction l with
  | nil => simp [heapInsert, hRel]
  | cons x xs ih =>
      intro hp
      rw [List.pairwise_cons] at hp
      simp only [heapInsert]
      split_ifs with h
      · rw [List.pairwise_cons]
        refine ⟨?_, List.pairwise_cons.2 hp⟩
        intro y hy
        rcases List.mem_cons.1 hy with rfl | hy2
        · exact le_of_lt h
        · exact le_trans (hp.1 y hy2) (le_of_lt h)
      · rw [List.pairwise_cons]
        refine ⟨?_, ih hp.2⟩
        intro y hy
        rcases (mem_heapInsert y e xs).1 hy with rfl | hy2
        · exact le_of_not_lt h
        · exact hp.1 y hy2

theorem heapInsert_length (e : HEntry) :
    ∀ l : List HEntry, (heapInsert e l).length = l.length + 1 := by
  intro l
  induction l with
  | nil => simp [heapInsert]
  | cons x xs ih =>
      simp only [heapInsert]
      split_ifs with h <;> simp [ih]

theorem push_SInv (img : Img) (s : MState) (qc : Coords) (p : List ℕ)
    (h : SInv img s) : SInv img (QuadModel.push img s qc p) := by
  obtain ⟨h1, h2, h3, h4⟩ := h
  refine ⟨heapInsert_sorted _ _ h1, ?_, h3, h4⟩
  intro e he
  rcases (mem_heapInsert e _ _).1 he with rfl | he2
  · rfl
  · exact h2 e he2

theorem pushChildren_SInv (img : Img) :
    ∀ (cs : List Coords) (s : MState) (p : List ℕ) (i : ℕ),
      SInv img s → SInv img (pushChildren img s cs p i)
  | [], s, p, i, h => h
  | c :: cs, s, p, i, h =>
      pushChildren_SInv img cs _ p (i + 1) (push_SInv img s c (p ++ [i]) h)

theorem step_SInv (img : Img) (s s2 : MState) (h : SInv img s)
    (hst : QuadModel.step img s = some s2) : SInv img s2 := by
  obtain ⟨h1, h2, h3, h4⟩ := h
  match hh : s.heap with
  | [] =>
      rw [QuadModel.step, QuadModel.pop, hh] at hst
      simp at hst
  | e :: rest =>
      rw [QuadModel.step, QuadModel.pop, hh] at hst
      simp only [Option.map_some', Option.some.injEq] at hst
      subst hst
      refine pushChildren_SInv img _ _ _ _ ⟨?_, ?_, ?_, ?_⟩
      · exact (List.pairwise_cons.1 (hh ▸ h1)).2
      · intro a ha
        exact h2 a (hh ▸ List.mem_cons_of_mem e ha)
      · exact splitAt_wfT _ _ h3
      · rw [splitAt_coordsOf]
        exact h4

theorem init_SInv (img : Img) : SInv img (initState img) := by
  refine ⟨?_, ?_, ?_, ?_⟩
  · simp [initState, QuadModel.push, heapInsert]
  · intro e he
    simp only [initState, QuadModel.push, heapInsert, List.mem_singleton] at he
    subst he
    rfl
  · exact ⟨Nat.zero_le _, Nat.zero_le _⟩
  · rfl

theorem reach_SInv (img : Img) : ∀ (k : ℕ) (s : MState),
    reachN img k = some s → SInv img s
  | 0, s, h => by
      rw [reachN] at h
      cases h
      exact init_SInv img
  | k + 1, s, h => by
      rw [reachN] at h
      rcases Option.bind_eq_some.1 h with ⟨s0, hs0, hstep⟩
      exact step_SInv img s0 s (reach_SInv img k s0 hs0) hstep

/-- C5: for every scheduler state reachable by any finite sequence of
`Step()` calls, `get_leaf_nodes()` on the root returns, in pre-order,
exactly the quadrants currently without children (the pre-order node list
filtered to childless nodes), and their half-open rectangles exactly tile
the root's bounding box: every point of the image rectangle lies in
exactly one returned rectangle and every point outside it in none. -/
theorem c5_collect_leaves_tile (img : Img) (k : ℕ) (s : MState)
    (h : reachN img k = some s) :
    s.root.leaves = s.root.nodes.filter (fun u => u.childrenL.isEmpty) ∧
    ∀ x y : ℕ, s.root.leaves.countP (fun u => containsB u.coordsOf x y) =
      if containsB (rootCoords img) x y then 1 else 0 := by
  have hi := reach_SInv img k s h
  refine ⟨leaves_eq_nodes_filter s.root, fun x y => ?_⟩
  rw [wfT_tiles s.root hi.2.2.1 x y, hi.2.2.2]

theorem c5_collect_leaves_tile_witness :
    (initState bw2).root.leaves =
      (initState bw2).root.nodes.filter (fun u => u.childrenL.isEmpty) ∧
    ∀ x y : ℕ,
      (initState bw2).root.leaves.countP (fun u => containsB u.coordsOf x y) =
        if containsB (rootCoords bw2) x y then 1 else 0 :=
  c5_collect_leaves_tile bw2 0 (initState bw2) rfl

theorem pushChildren_heap_length (img : Img) :
    ∀ (cs : List Coords) (s : MState) (p : List ℕ) (i : ℕ),
      (pushChildren img s cs p i).heap.length = s.heap.length + cs.length
  | [], s, p, i => by simp [pushChildren]
  | c :: cs, s, p, i => by
      rw [pushChildren, pushChildren_heap_length img cs _ p (i + 1)]
      simp only [QuadModel.push, heapInsert_length, List.length_cons]
      omega

/-- C7: for every image and every `k`, the `k`-th `Step()` from a fresh
scheduler succeeds and leaves exactly `1 + 3k` quadrants on the frontier:
each step removes one heap entry and pushes the four children. -/
theorem c7_frontier_size (img : Img) : ∀ k : ℕ,
    ∃ s : MState, reachN img k = some s ∧ s.heap.length = 1 + 3 * k
  | 0 => ⟨initState img, rfl, by simp [initState, QuadModel.push, heapInsert]⟩
  | k + 1 => by
      obtain ⟨s, hs, hlen⟩ := c7_frontier_size img k
      match hh : s.heap with
      | [] =>
          rw [hh] at hlen
          exact absurd hlen (by
            intro hcon
            simp only [List.length_nil] at hcon
            omega)
      | e :: rest =>
          have hr : rest.length = 3 * k := by
            rw [hh] at hlen
            simp only [List.length_cons] at hlen
            omega
          refine ⟨pushChildren img
            { root := s.root.splitAt e.path, heap := rest,
              model_error := s.model_error -
                Quadrant.error img e.qc * (Quadrant.compute_area e.qc : ℚ) }
            (Quadrant.split e.qc) e.path 0, ?_, ?_⟩
          · rw [reachN, hs]
            show QuadModel.step img s = _
            rw [QuadModel.step, QuadModel.pop, hh]
            rfl
          · rw [pushChildren_heap_length]
            simp only [List.length_cons, Quadrant.split, List.length_nil]
            omega

theorem error_nonneg (img : Img) (c : Coords) : 0 ≤ Quadrant.error img c := by
  rw [error_eq_mseSum]
  positivity

/-- The rational key `error ^ 4 * area` represents the real priority
`error * area ** 0.25` faithfully: for quadrants (whose error is
nonnegative) the two orders coincide. -/
theorem scoreKey_le_iff_rpow (img : Img) (c1 c2 : Coords)
    (h : scoreKey img c1 ≤ scoreKey img c2) :
    rPriority img c1 ≤ rPriority img c2 := by
  have he1 := error_nonneg img c1
  have he2 := error_nonneg img c2
  have ha1 : (0 : ℝ) ≤ (Quadrant.compute_area c1 : ℝ) := Nat.cast_nonneg _
  have ha2 : (0 : ℝ) ≤ (Quadrant.compute_area c2 : ℝ) := Nat.cast_nonneg _
  have hp1 : (0 : ℝ) ≤ rPriority img c1 := by
    apply mul_nonneg
    · exact_mod_cast he1
    · positivity
  have hp2 : (0 : ℝ) ≤ rPriority img c2 := by
    apply mul_nonneg
    · exact_mod_cast he2
    · positivity
  have key4 : ∀ c : Coords, 0 ≤ Quadrant.error img c →
      rPriority img c ^ (4 : ℕ) =
        ((Quadrant.error img c : ℝ)) ^ (4 : ℕ) * (Quadrant.compute_area c : ℝ) := by
    intro c hc
    rw [rPriority, mul_pow, ← Real.rpow_natCast ((Quadrant.compute_area c : ℝ) ^ ((1 : ℝ) / 4)) 4,
      ← Real.rpow_mul (Nat.cast_nonneg _)]
    norm_num
  refine (pow_le_pow_iff_left₀ hp1 hp2 (by norm_num : (4 : ℕ) ≠ 0)).1 ?_
  rw [key4 c1 he1, key4 c2 he2]
  have hq : ((scoreKey img c1 : ℚ) : ℝ) ≤ ((scoreKey img c2 : ℚ) : ℝ) := by
    exact_mod_cast h
  rw [scoreKey, scoreKey] at hq
  push_cast at hq
  exact hq

/-- C6: for every reachable state with a non-empty frontier, `Pop()`
succeeds, removes and returns a quadrant whose real priority
`error * area ** 0.25` is maximal among all frontier entries, and
decreases `model_error` by exactly `error * area` of the returned
quadrant, leaving the tree unchanged. -/
theorem c6_pop_max_priority (img : Img) (k : ℕ) (s : MState)
    (h : reachN img k = some s) (hne : s.heap ≠ []) :
    ∃ (e : HEntry) (s2 : MState),
      QuadModel.pop img s = some (e, s2) ∧
      e ∈ s.heap ∧
      (∀ e2 ∈ s.heap, rPriority img e2.qc ≤ rPriority img e.qc) ∧
      s2.model_error = s.model_error -
        Quadrant.error img e.qc * (Quadrant.compute_area e.qc : ℚ) ∧
      s2.heap = s.heap.tail ∧ s2.root = s.root := by
  obtain ⟨hsort, hkeys, _, _⟩ := reach_SInv img k s h
  match hh : s.heap with
  | [] => exact absurd hh hne
  | e :: rest =>
      refine ⟨e,
        { root := s.root, heap := rest,
          model_error := s.model_error -
            Quadrant.error img e.qc * (Quadrant.compute_area e.qc : ℚ) },
        ?_, ?_, ?_, rfl, ?_, rfl⟩
      · rw [QuadModel.pop, hh]
      · exact List.mem_cons_self e rest
      · intro e2 he2
        rcases List.mem_cons.1 he2 with rfl | he3
        · exact le_refl _
        · apply scoreKey_le_iff_rpow
          rw [hh] at hsort hkeys
          have hk2 := hkeys e2 (List.mem_cons_of_mem e he3)
          have hk1 := hkeys e (List.mem_cons_self e rest)
          have hle := (List.pairwise_cons.1 hsort).1 e2 he3
          rw [hRel, hk1, hk2] at hle
          exact hle
      · rfl

theorem c6_pop_max_priority_witness :
    ∃ (e : HEntry) (s2 : MState),
      QuadModel.pop bw2 (initState bw2) = some (e, s2) ∧
      e ∈ (initState bw2).heap ∧
      (∀ e2 ∈ (initState bw2).heap, rPriority bw2 e2.qc ≤ rPriority bw2 e.qc) ∧
      s2.model_error = (initState bw2).model_error -
        Quadrant.error bw2 e.qc * (Quadrant.compute_area e.qc : ℚ) ∧
      s2.heap = (initState bw2).heap.tail ∧ s2.root = (initState bw2).root :=
  c6_pop_max_priority bw2 0 (initState bw2) rfl
    (by simp [initState, QuadModel.push, heapInsert])

/-- C10: immediately after construction (zero steps), the average model
error is twice the root error: the constructor seeds `model_error` with
`root.error * root.area` and the subsequent `push(root)` adds the same
quantity again, and the root area equals `width * height`. -/
theorem c10_avg_error_after_construct (img : Img)
    (hw : img.width ≠ 0) (hh : img.height ≠ 0) :
    QuadModel.compute_average_model_error img (initState img) =
      2 * Quadrant.error img (rootCoords img) := by
  have hwq : ((img.width : ℚ)) ≠ 0 := Nat.cast_ne_zero.2 hw
  have hhq : ((img.height : ℚ)) ≠ 0 := Nat.cast_ne_zero.2 hh
  simp only [QuadModel.compute_average_model_error, initState, QuadModel.push]
  have harea : (Quadrant.compute_area (rootCoords img) : ℚ) =
      (img.height : ℚ) * (img.width : ℚ) := by
    simp [Quadrant.compute_area, rootCoords]
  rw [harea]
  field_simp
  ring

theorem c10_avg_error_after_construct_witness :
    bw2.width ≠ 0 ∧ bw2.height ≠ 0 ∧
      QuadModel.compute_average_model_error bw2 (initState bw2) =
        2 * Quadrant.error bw2 (rootCoords bw2) :=
  ⟨by decide, by decide, c10_avg_error_after_construct bw2 (by decide) (by decide)⟩

theorem bw2_root_error : Quadrant.error bw2 (rootCoords bw2) = 16256 := by
  rw [error_eq_mseSum, show mseSum bw2 (rootCoords bw2) = 48768 from by decide]
  norm_num

theorem bw2_root_area : (Quadrant.compute_area (rootCoords bw2) : ℚ) = 2 := by
  rw [show Quadrant.compute_area (rootCoords bw2) = 2 from by decide]
  norm_num

/-- C1 (evaluation at the failing input): on the 2-by-1 black/white
image, immediately after construction (zero steps) `model_error` is
`65024 = 2 * error(root) * area(root)` while the sum of `error * area`
over the frontier (which holds exactly the root) is `32512`; the two
differ, because `__init__` seeds `model_error` with
`root.error * root.area` and `push(root)` adds the same amount again,
so the claimed invariant `totalWeightedError = Σ error*area over the
frontier` fails already in the initial state. -/
theorem c1_model_error_double_counts_root :
    (initState bw2).model_error = 65024 ∧
    heapWeightSum bw2 (initState bw2) = 32512 ∧
    Quadrant.error bw2 (rootCoords bw2) *
      (Quadrant.compute_area (rootCoords bw2) : ℚ) = 32512 ∧
    (initState bw2).model_error ≠ heapWeightSum bw2 (initState bw2) := by
  have h1 : (initState bw2).model_error = 65024 := by
    simp only [initState, QuadModel.push]
    rw [bw2_root_error, bw2_root_area]
    norm_num
  have h2 : heapWeightSum bw2 (initState bw2) = 32512 := by
    simp only [heapWeightSum, initState, QuadModel.push, heapInsert,
      List.map_cons, List.map_nil, List.sum_cons, List.sum_nil]
    rw [bw2_root_error, bw2_root_area]
    norm_num
  refine ⟨h1, h2, ?_, ?_⟩
  · rw [bw2_root_error, bw2_root_area]
    norm_num
  · rw [h1, h2]
    norm_num

theorem qcast_map_sum (f : ℕ → ℕ) (g : ℕ → ℚ) (hfg : ∀ i, ((f i : ℕ) : ℚ) = g i) :
    ∀ l : List ℕ, (l.map g).sum = (((l.map f).sum : ℕ) : ℚ)
  | [] => by simp
  | i :: l => by
      simp only [List.map_cons, List.sum_cons, qcast_map_sum f g hfg l]
      rw [← hfg i]
      push_cast
      ring

/-- C4 counterexample: on the histogram with one pixel at 0 and one at
255 the total is positive, yet the returned mean is the Python 2
floor-division result 127, not the exact real quotient 127.5 the spec
states, so the operation does not return the exact floating-point
quotients. -/
theorem c4_not_exact_quotient :
    0 < ((List.range 256).map twoHist).sum ∧
    ((Quadrant.compute_avg_color_mse twoHist).1 : ℚ) ≠ specChannelMean twoHist := by
  have h1 : ((List.range 256).map twoHist).sum = 2 := by decide
  have h2 : (Quadrant.compute_avg_color_mse twoHist).1 = 127 := by decide
  have h3 : ((List.range 256).map fun i => i * twoHist i).sum = 255 := by decide
  have hm : specChannelMean twoHist = 255 / 2 := by
    rw [specChannelMean,
      qcast_map_sum (fun i => i * twoHist i)
        (fun (i : ℕ) => (i : ℚ) * (twoHist i : ℚ)) (fun i => by push_cast; ring),
      qcast_map_sum twoHist (fun (i : ℕ) => (twoHist i : ℚ)) (fun i => rfl),
      h1, h3]
    norm_num
  constructor
  · rw [h1]
    norm_num
  · rw [h2, hm]
    norm_num

theorem natDiv_cast_floor (a b : ℕ) (hb : 0 < b) :
    ((a / b : ℕ) : ℤ) = ⌊(a : ℚ) / (b : ℚ)⌋ := by
  have hbq : (0 : ℚ) < (b : ℚ) := by exact_mod_cast hb
  have hlow : ((a / b : ℕ) : ℚ) ≤ (a : ℚ) / (b : ℚ) := by
    rw [le_div_iff₀ hbq]
    exact_mod_cast Nat.div_mul_le_self a b
  have hub2 : a < (a / b + 1) * b := by
    have hd := Nat.div_add_mod a b
    have hmlt := Nat.mod_lt a hb
    calc a = b * (a / b) + a % b := hd.symm
      _ < b * (a / b) + b := by omega
      _ = (a / b + 1) * b := by ring
  have hub : (a : ℚ) / (b : ℚ) < ((a / b : ℕ) : ℚ) + 1 := by
    rw [div_lt_iff₀ hbq]
    calc (a : ℚ) < (((a / b + 1) * b : ℕ) : ℚ) := by exact_mod_cast hub2
      _ = (((a / b : ℕ) : ℚ) + 1) * (b : ℚ) := by push_cast; ring
  symm
  rw [Int.floor_eq_iff]
  refine ⟨by exact_mod_cast hlow, ?_⟩
  push_cast
  exact hub

theorem sqDiff_cast (a i n : ℕ) :
    (((((a : ℤ) - (i : ℤ)).natAbs ^ 2 * n : ℕ)) : ℚ) =
      ((a : ℚ) - (i : ℚ)) ^ 2 * (n : ℚ) := by
  push_cast [Int.cast_natAbs]
  rw [sq_abs]
  try push_cast
  try ring

/-- C4 as the code has it: with a positive total, the returned mean is
the floor of the exact quotient `Σ(i·count_i) / total`, and the returned
mse is the floor of `Σ((returnedMean − i)² · count_i) / total` — floored
integer quotients (Python 2 integer division), computed from the already
floored mean, not the exact real-valued quotients of the spec. -/
theorem c4_stats_are_floored (h : ℕ → ℕ)
    (hpos : 0 < ((List.range 256).map h).sum) :
    ((Quadrant.compute_avg_color_mse h).1 : ℤ) = ⌊specChannelMean h⌋ ∧
    ((Quadrant.compute_avg_color_mse h).2 : ℤ) =
      ⌊((List.range 256).map fun (i : ℕ) =>
          (((Quadrant.compute_avg_color_mse h).1 : ℚ) - (i : ℚ)) ^ 2 * (h i : ℚ)).sum /
        ((List.range 256).map fun (i : ℕ) => (h i : ℚ)).sum⌋ := by
  have hne : ((List.range 256).map h).sum ≠ 0 := Nat.pos_iff_ne_zero.1 hpos
  have hden : ((List.range 256).map fun (i : ℕ) => (h i : ℚ)).sum =
      ((((List.range 256).map h).sum : ℕ) : ℚ) :=
    qcast_map_sum h (fun (i : ℕ) => (h i : ℚ)) (fun i => rfl) (List.range 256)
  have havg : (Quadrant.compute_avg_color_mse h).1 =
      ((List.range 256).map fun i => i * h i).sum / ((List.range 256).map h).sum := by
    simp only [Quadrant.compute_avg_color_mse, if_neg hne]
  have hmse : (Quadrant.compute_avg_color_mse h).2 =
      ((List.range 256).map fun (i : ℕ) =>
          (((Quadrant.compute_avg_color_mse h).1 : ℤ) - (i : ℤ)).natAbs ^ 2 * h i).sum /
        ((List.range 256).map h).sum := by
    simp only [Quadrant.compute_avg_color_mse, if_neg hne]
  constructor
  · rw [havg, specChannelMean,
      qcast_map_sum (fun i => i * h i)
        (fun (i : ℕ) => (i : ℚ) * (h i : ℚ)) (fun i => by push_cast; ring),
      hden]
    exact natDiv_cast_floor _ _ hpos
  · rw [hmse, hden]
    rw [qcast_map_sum
      (fun (i : ℕ) => (((Quadrant.compute_avg_color_mse h).1 : ℤ) - (i : ℤ)).natAbs ^ 2 * h i)
      (fun (i : ℕ) => (((Quadrant.compute_avg_color_mse h).1 : ℚ) - (i : ℚ)) ^ 2 * (h i : ℚ))
      (fun i => sqDiff_cast _ i (h i)) (List.range 256)]
    exact natDiv_cast_floor _ _ hpos

theorem c4_stats_are_floored_witness :
    0 < ((List.range 256).map twoHist).sum ∧
    ((Quadrant.compute_avg_color_mse twoHist).1 : ℤ) = ⌊specChannelMean twoHist⌋ ∧
    ((Quadrant.compute_avg_color_mse twoHist).2 : ℤ) =
      ⌊((List.range 256).map fun (i : ℕ) =>
          (((Quadrant.compute_avg_color_mse twoHist).1 : ℚ) - (i : ℚ)) ^ 2 * (twoHist i : ℚ)).sum /
        ((List.range 256).map fun (i : ℕ) => (twoHist i : ℚ)).sum⌋ :=
  ⟨by decide, c4_stats_are_floored twoHist (by decide)⟩

theorem capm_zero_hist : Quadrant.compute_avg_color_mse (fun _ => 0) = (0, 0) := by
  decide

theorem flatMap_const_nil (L : List ℕ) :
    (L.flatMap fun _ => ([] : List RGB)) = [] := by
  induction L with
  | nil => rfl
  | cons x xs ih => simp [List.flatMap_cons, ih]

theorem regionPixels_degenerate (img : Img) (c : Coords)
    (hdeg : c.r ≤ c.l ∨ c.b ≤ c.t) : regionPixels img c = [] := by
  rcases hdeg with hle | hle
  · have hz : c.r - c.l = 0 := Nat.sub_eq_zero_of_le hle
    rw [regionPixels, hz]
    simp only [List.range_zero, List.map_nil]
    exact flatMap_const_nil _
  · have hz : c.b - c.t = 0 := Nat.sub_eq_zero_of_le hle
    rw [regionPixels, hz]
    rfl

/-- C9: the all-zero channel histogram yields mean 0 and mse 0 (the
guard replaces the zero total by 1, so no division by zero occurs), and
consequently analyzing a quadrant over a degenerate zero-width or
zero-height rectangle succeeds and yields color (0,0,0) with error 0:
its cropped region is empty, so all three channel histograms are
all-zero. -/
theorem c9_degenerate_region_defined :
    Quadrant.compute_avg_color_mse (fun _ => 0) = (0, 0) ∧
    ∀ (img : Img) (c : Coords), c.r ≤ c.l ∨ c.b ≤ c.t →
      (∀ ch : ℕ, hist img ch c = fun _ => 0) ∧
      Quadrant.compute_color img c = ((0, 0, 0), 0) := by
  refine ⟨capm_zero_hist, ?_⟩
  intro img c hdeg
  have hreg := regionPixels_degenerate img c hdeg
  have hhist : ∀ ch : ℕ, hist img ch c = fun _ => 0 := by
    intro ch
    funext i
    rw [hist, hreg]
    rfl
  refine ⟨hhist, ?_⟩
  rw [Quadrant.compute_color, hhist 0, hhist 1, hhist 2, capm_zero_hist]
  norm_num

theorem c9_degenerate_region_defined_witness :
    ((0 : ℕ) ≤ 0 ∨ (5 : ℕ) ≤ 0) ∧
    ((∀ ch : ℕ, hist bw2 ch ⟨0, 0, 0, 5⟩ = fun _ => 0) ∧
      Quadrant.compute_color bw2 ⟨0, 0, 0, 5⟩ = ((0, 0, 0), 0)) := by
  constructor
  · exact Or.inl (le_refl 0)
  · have h := (c9_degenerate_region_defined.2 bw2 ⟨0, 0, 0, 5⟩ (Or.inl (le_refl 0)))
    exact ⟨fun ch => h.1 ch, h.2⟩

theorem pushChildren_root (img : Img) :
    ∀ (cs : List Coords) (s : MState) (p : List ℕ) (i : ℕ),
      (pushChildren img s cs p i).root = s.root
  | [], s, p, i => rfl
  | c :: cs, s, p, i => pushChildren_root img cs _ p (i + 1)

theorem pushChildren_model_error (img : Img) :
    ∀ (cs : List Coords) (s : MState) (p : List ℕ) (i : ℕ),
      (pushChildren img s cs p i).model_error =
        s.model_error + (cs.map fun c =>
          Quadrant.error img c * (Quadrant.compute_area c : ℚ)).sum
  | [], s, p, i => by simp [pushChildren]
  | c :: cs, s, p, i => by
      rw [pushChildren, pushChildren_model_error img cs _ p (i + 1)]
      simp only [QuadModel.push, List.map_cons, List.sum_cons]
      ring

theorem error_zero_of_mseSum_zero (img : Img) (c : Coords) (h : mseSum img c = 0) :
    Quadrant.error img c = 0 := by
  rw [error_eq_mseSum, h]
  norm_num

theorem rb8_root_error : Quadrant.error rb8 (rootCoords rb8) = 32512 / 3 := by
  rw [error_eq_mseSum, show mseSum rb8 (rootCoords rb8) = 32512 from by decide]
  norm_num

theorem rb8_step1 :
    reachN rb8 1 = some (pushChildren rb8
      { root := (QTree.leafN (rootCoords rb8) 0).splitAt ([] : List ℕ),
        heap := ([] : List HEntry),
        model_error :=
          (Quadrant.error rb8 (rootCoords rb8) *
              (Quadrant.compute_area (rootCoords rb8) : ℚ) +
            Quadrant.error rb8 (rootCoords rb8) *
              (Quadrant.compute_area (rootCoords rb8) : ℚ)) -
          Quadrant.error rb8 (rootCoords rb8) *
            (Quadrant.compute_area (rootCoords rb8) : ℚ) }
      (Quadrant.split (rootCoords rb8)) ([] : List ℕ) 0) := rfl

theorem rb8_children_coords :
    ((pushChildren rb8
      { root := (QTree.leafN (rootCoords rb8) 0).splitAt ([] : List ℕ),
        heap := ([] : List HEntry),
        model_error :=
          (Quadrant.error rb8 (rootCoords rb8) *
              (Quadrant.compute_area (rootCoords rb8) : ℚ) +
            Quadrant.error rb8 (rootCoords rb8) *
              (Quadrant.compute_area (rootCoords rb8) : ℚ)) -
          Quadrant.error rb8 (rootCoords rb8) *
            (Quadrant.compute_area (rootCoords rb8) : ℚ) }
      (Quadrant.split (rootCoords rb8)) ([] : List ℕ) 0).root).childrenL.map
        QTree.coordsOf =
      [⟨0, 0, 4, 4⟩, ⟨4, 0, 8, 4⟩, ⟨0, 4, 4, 8⟩, ⟨4, 4, 8, 8⟩] := by
  rw [pushChildren_root]
  rfl

/-- C2 counterexample: on the spec's 8-by-8 red/blue image, after exactly
one `Step()` the scheduler's `model_error` equals
`error(root) * area(root) = 2080768/3`, which is not 0 as the claim
states: the constructor seeds `model_error` with `error(root)*area(root)`
and `push(root)` adds it again, and one step only removes one of the two
copies (the four pushed children contribute 0). -/
theorem c2_totalWeightedError_nonzero :
    ∃ s : MState, reachN rb8 1 = some s ∧
      s.model_error = 2080768 / 3 ∧ s.model_error ≠ 0 := by
  refine ⟨_, rb8_step1, ?_, ?_⟩
  all_goals rw [pushChildren_model_error]
  all_goals rw [show Quadrant.split (rootCoords rb8) =
    [⟨0, 0, 4, 4⟩, ⟨4, 0, 8, 4⟩, ⟨0, 4, 4, 8⟩, ⟨4, 4, 8, 8⟩] from rfl]
  all_goals simp only [List.map_cons, List.map_nil, List.sum_cons, List.sum_nil]
  all_goals rw [error_zero_of_mseSum_zero rb8 ⟨0, 0, 4, 4⟩ (by decide),
    error_zero_of_mseSum_zero rb8 ⟨4, 0, 8, 4⟩ (by decide),
    error_zero_of_mseSum_zero rb8 ⟨0, 4, 4, 8⟩ (by decide),
    error_zero_of_mseSum_zero rb8 ⟨4, 4, 8, 8⟩ (by decide),
    rb8_root_error,
    show (Quadrant.compute_area (rootCoords rb8) : ℚ) = 64 from by
      rw [show Quadrant.compute_area (rootCoords rb8) = 64 from by decide]; norm_num]
  all_goals norm_num

/-- C2 as the code has it: on the 8-by-8 image whose left half is solid
red and right half solid blue, one `Step()` splits the root at `x = 4`
and also at `y = 4` into four children (a quadtree split, not a 2-way
vertical one), each child reports `error = 0` and `color` equal to the
solid color of its region (red, blue, red, blue in child order), and
`totalWeightedError` equals `error(root) * area(root) = 2080768/3`
rather than 0. -/
theorem c2_one_step_on_red_blue :
    ∃ s : MState, reachN rb8 1 = some s ∧
      s.root = QTree.nodeN ⟨0, 0, 8, 8⟩ 0
        (.leafN ⟨0, 0, 4, 4⟩ 1) (.leafN ⟨4, 0, 8, 4⟩ 1)
        (.leafN ⟨0, 4, 4, 8⟩ 1) (.leafN ⟨4, 4, 8, 8⟩ 1) ∧
      (s.root.childrenL.map QTree.coordsOf).map (Quadrant.colorOf rb8) =
        [(255, 0, 0), (0, 0, 255), (255, 0, 0), (0, 0, 255)] ∧
      (∀ c ∈ s.root.childrenL.map QTree.coordsOf, Quadrant.error rb8 c = 0) ∧
      s.model_error = Quadrant.error rb8 (rootCoords rb8) *
        (Quadrant.compute_area (rootCoords rb8) : ℚ) ∧
      s.model_error = 2080768 / 3 := by
  refine ⟨_, rb8_step1, ?_, ?_, ?_, ?_, ?_⟩
  · rw [pushChildren_root]
    decide
  · rw [rb8_children_coords]
    show [Quadrant.colorOf rb8 ⟨0, 0, 4, 4⟩, Quadrant.colorOf rb8 ⟨4, 0, 8, 4⟩,
      Quadrant.colorOf rb8 ⟨0, 4, 4, 8⟩, Quadrant.colorOf rb8 ⟨4, 4, 8, 8⟩] = _
    rw [show Quadrant.colorOf rb8 ⟨0, 0, 4, 4⟩ = (255, 0, 0) from by decide,
      show Quadrant.colorOf rb8 ⟨4, 0, 8, 4⟩ = (0, 0, 255) from by decide,
      show Quadrant.colorOf rb8 ⟨0, 4, 4, 8⟩ = (255, 0, 0) from by decide,
      show Quadrant.colorOf rb8 ⟨4, 4, 8, 8⟩ = (0, 0, 255) from by decide]
  · rw [rb8_children_coords]
    intro c hc
    simp only [List.mem_cons, List.not_mem_nil, or_false] at hc
    rcases hc with rfl | rfl | rfl | rfl
    · exact error_zero_of_mseSum_zero rb8 _ (by decide)
    · exact error_zero_of_mseSum_zero rb8 _ (by decide)
    · exact error_zero_of_mseSum_zero rb8 _ (by decide)
    · exact error_zero_of_mseSum_zero rb8 _ (by decide)
  · rw [pushChildren_model_error]
    rw [show Quadrant.split (rootCoords rb8) =
      [⟨0, 0, 4, 4⟩, ⟨4, 0, 8, 4⟩, ⟨0, 4, 4, 8⟩, ⟨4, 4, 8, 8⟩] from rfl]
    simp only [List.map_cons, List.map_nil, List.sum_cons, List.sum_nil]
    rw [error_zero_of_mseSum_zero rb8 ⟨0, 0, 4, 4⟩ (by decide),
      error_zero_of_mseSum_zero rb8 ⟨4, 0, 8, 4⟩ (by decide),
      error_zero_of_mseSum_zero rb8 ⟨0, 4, 4, 8⟩ (by decide),
      error_zero_of_mseSum_zero rb8 ⟨4, 4, 8, 8⟩ (by decide)]
    ring
  · rw [pushChildren_model_error]
    rw [show Quadrant.split (rootCoords rb8) =
      [⟨0, 0, 4, 4⟩, ⟨4, 0, 8, 4⟩, ⟨0, 4, 4, 8⟩, ⟨4, 4, 8, 8⟩] from rfl]
    simp only [List.map_cons, List.map_nil, List.sum_cons, List.sum_nil]
    rw [error_zero_of_mseSum_zero rb8 ⟨0, 0, 4, 4⟩ (by decide),
      error_zero_of_mseSum_zero rb8 ⟨4, 0, 8, 4⟩ (by decide),
      error_zero_of_mseSum_zero rb8 ⟨0, 4, 4, 8⟩ (by decide),
      error_zero_of_mseSum_zero rb8 ⟨4, 4, 8, 8⟩ (by decide),
      rb8_root_error,
      show (Quadrant.compute_area (rootCoords rb8) : ℚ) = 64 from by
        rw [show Quadrant.compute_area (rootCoords rb8) = 64 from by decide]; norm_num]
    norm_num

theorem pyInt_cast_add_one (l : ℕ) (m : ℚ) (hm : 0 ≤ m) :
    pyInt ((l : ℚ) * m + 1) = ⌊(l : ℚ) * m⌋ + 1 := by
  rw [pyInt, if_pos (by positivity), Int.floor_add_one]

theorem lt_of_srect_x (m : ℚ) (hm : 0 ≤ m) (l2 r1 : ℕ)
    (hx : (⌊(l2 : ℚ) * m⌋ + 1 : ℤ) ≤ pyInt ((r1 : ℚ) * m - 1)) : l2 < r1 := by
  by_contra hcon
  push_neg at hcon
  have hmul : (r1 : ℚ) * m ≤ (l2 : ℚ) * m := by
    apply mul_le_mul_of_nonneg_right _ hm
    exact_mod_cast hcon
  have hl2 : (0 : ℤ) ≤ ⌊(l2 : ℚ) * m⌋ := Int.floor_nonneg.2 (by positivity)
  rcases le_or_lt 0 ((r1 : ℚ) * m - 1) with hpos | hneg
  · rw [pyInt, if_pos hpos] at hx
    have h1 : ⌊(r1 : ℚ) * m - 1⌋ = ⌊(r1 : ℚ) * m⌋ - 1 := Int.floor_sub_one _
    have h2 : ⌊(r1 : ℚ) * m⌋ ≤ ⌊(l2 : ℚ) * m⌋ := Int.floor_le_floor hmul
    omega
  · rw [pyInt, if_neg (by linarith)] at hx
    have h1 : (0 : ℤ) ≤ ⌊-((r1 : ℚ) * m - 1)⌋ := Int.floor_nonneg.2 (by linarith)
    omega

theorem srect_overlap_boxes (m : ℚ) (hm : 0 ≤ m) (c c2 : Coords) (x y : ℤ)
    (h1 : inSRect m c x y) (h2 : inSRect m c2 x y) :
    ∃ p q : ℕ, containsB c p q = true ∧ containsB c2 p q = true := by
  obtain ⟨h1a, h1b, h1c, h1d⟩ := h1
  obtain ⟨h2a, h2b, h2c, h2d⟩ := h2
  rw [pyInt_cast_add_one _ _ hm] at h1a h1c h2a h2c
  have k11 : c.l < c.r := lt_of_srect_x m hm c.l c.r (le_trans h1a h1b)
  have k22 : c2.l < c2.r := lt_of_srect_x m hm c2.l c2.r (le_trans h2a h2b)
  have k12 : c.l < c2.r := lt_of_srect_x m hm c.l c2.r (le_trans h1a h2b)
  have k21 : c2.l < c.r := lt_of_srect_x m hm c2.l c.r (le_trans h2a h1b)
  have j11 : c.t < c.b := lt_of_srect_x m hm c.t c.b (le_trans h1c h1d)
  have j22 : c2.t < c2.b := lt_of_srect_x m hm c2.t c2.b (le_trans h2c h2d)
  have j12 : c.t < c2.b := lt_of_srect_x m hm c.t c2.b (le_trans h1c h2d)
  have j21 : c2.t < c.b := lt_of_srect_x m hm c2.t c.b (le_trans h2c h1d)
  refine ⟨max c.l c2.l, max c.t c2.t, ?_, ?_⟩ <;>
    · obtain ⟨al, at2, ar, ab⟩ := c
      obtain ⟨bl, bt, br, bb⟩ := c2
      simp only [containsB, Bool.and_eq_true, decide_eq_true_eq] at *
      omega

theorem drawLeaves_skip (img : Img) (m : ℚ) :
    ∀ (L : List QTree) (buf : ℤ → ℤ → RGB) (x y : ℤ),
      (∀ q ∈ L, ¬ inSRect m q.coordsOf x y) →
      drawLeaves img m buf L x y = buf x y
  | [], buf, x, y, h => rfl
  | q :: qs, buf, x, y, h => by
      rw [drawLeaves,
        drawLeaves_skip img m qs _ x y (fun p hp => h p (List.mem_cons_of_mem q hp))]
      simp only [drawRect]
      exact if_neg (h q (List.mem_cons_self q qs))

theorem drawLeaves_paint (img : Img) (m : ℚ) :
    ∀ (L : List QTree) (buf : ℤ → ℤ → RGB) (x y : ℤ) (col : RGB),
      (∃ q ∈ L, inSRect m q.coordsOf x y) →
      (∀ q ∈ L, inSRect m q.coordsOf x y → Quadrant.colorOf img q.coordsOf = col) →
      drawLeaves img m buf L x y = col
  | [], buf, x, y, col, hex, hall => by
      rcases hex with ⟨q, hq, _⟩
      exact absurd hq (List.not_mem_nil q)
  | q :: qs, buf, x, y, col, hex, hall => by
      by_cases hcov : ∃ p ∈ qs, inSRect m p.coordsOf x y
      · exact drawLeaves_paint img m qs _ x y col hcov
          (fun p hp hin => hall p (List.mem_cons_of_mem q hp) hin)
      · push_neg at hcov
        rw [drawLeaves, drawLeaves_skip img m qs _ x y hcov]
        have hqin : inSRect m q.coordsOf x y := by
          rcases hex with ⟨p, hp, hin⟩
          rcases List.mem_cons.1 hp with rfl | hp2
          · exact hin
          · exact absurd hin (hcov p hp2)
        simp only [drawRect]
        exact (if_pos hqin).trans (hall q (List.mem_cons_self q qs) hqin)

theorem two_le_countP (p : QTree → Bool) :
    ∀ (L : List QTree) (a b : QTree), a ∈ L → b ∈ L → a ≠ b →
      p a = true → p b = true → 2 ≤ L.countP p
  | [], a, b, ha, _, _, _, _ => absurd ha (List.not_mem_nil a)
  | x :: xs, a, b, ha, hb, hne, hpa, hpb => by
      rw [List.countP_cons]
      rcases List.mem_cons.1 ha with rfl | ha2
      · rcases List.mem_cons.1 hb with rfl | hb2
        · exact absurd rfl hne
        · have h1 : 0 < xs.countP p := List.countP_pos_iff.2 ⟨b, hb2, hpb⟩
          rw [if_pos hpa]
          omega
      · rcases List.mem_cons.1 hb with rfl | hb2
        · have h1 : 0 < xs.countP p := List.countP_pos_iff.2 ⟨a, ha2, hpa⟩
          rw [if_pos hpb]
          omega
        · have h2 := two_le_countP p xs a b ha2 hb2 hne hpa hpb
          split_ifs <;> omega

/-- C8 as the code has it: for every reachable scheduler state and every
nonnegative output scale `m`, `render` produces a buffer of size
`(int(width*m) + 1) × (int(height*m) + 1)` — one unit larger on each
axis than the `width*scale × height*scale` of the claim, because the
source adds the `QUAD_PADDING` offsets `dx = dy = 1` to the canvas
size — and paints every quadrant of `root.get_leaf_nodes()` as a solid
rectangle of that quadrant's color inset by exactly 1 unit of padding on
each side of its scaled bounds; the scheduler state itself is untouched
(render is a pure function of the state in this embedding). -/
theorem c8_render_size_and_paint (img : Img) (k : ℕ) (s : MState)
    (h : reachN img k = some s) (m : ℚ) (hm : 0 ≤ m) :
    (QuadModel.render img s m).width = pyInt ((img.width : ℚ) * m) + 1 ∧
    (QuadModel.render img s m).height = pyInt ((img.height : ℚ) * m) + 1 ∧
    ∀ q ∈ s.root.leaves, ∀ x y : ℤ, inSRect m q.coordsOf x y →
      (QuadModel.render img s m).px x y = Quadrant.colorOf img q.coordsOf := by
  refine ⟨rfl, rfl, ?_⟩
  intro q hq x y hin
  have hw := reach_SInv img k s h
  have hpx : (QuadModel.render img s m).px =
      drawLeaves img m
        (drawRect (fun _ _ => (0, 0, 0)) 0 0
          (pyInt ((img.width : ℚ) * m)) (pyInt ((img.height : ℚ) * m)) (0, 0, 0))
        s.root.leaves := rfl
  rw [hpx]
  apply drawLeaves_paint img m s.root.leaves _ x y _ ⟨q, hq, hin⟩
  intro p hp hpin
  by_cases hpq : p = q
  · rw [hpq]
  · exfalso
    obtain ⟨pt, qt, hc1, hc2⟩ :=
      srect_overlap_boxes m hm p.coordsOf q.coordsOf x y hpin hin
    have htile := wfT_tiles s.root hw.2.2.1 pt qt
    have h2 := two_le_countP (fun u => containsB u.coordsOf pt qt)
      s.root.leaves p q hp hq hpq hc1 hc2
    rw [htile] at h2
    split_ifs at h2 <;> omega

theorem c8_render_size_and_paint_witness :
    (QuadModel.render bw2 (initState bw2) 1).width =
      pyInt ((bw2.width : ℚ) * 1) + 1 ∧
    (QuadModel.render bw2 (initState bw2) 1).height =
      pyInt ((bw2.height : ℚ) * 1) + 1 ∧
    ∀ q ∈ (initState bw2).root.leaves, ∀ x y : ℤ, inSRect 1 q.coordsOf x y →
      (QuadModel.render bw2 (initState bw2) 1).px x y =
        Quadrant.colorOf bw2 q.coordsOf :=
  c8_render_size_and_paint bw2 0 (initState bw2) rfl 1 (by norm_num)

/-- C8 counterexample: on the 2-by-1 image at scale 1 the rendered
buffer is 3 pixels wide, not `imageWidth * scale = 2` as the claim
states (the canvas is created with the padding offsets added to its
size). -/
theorem c8_size_counterexample :
    (QuadModel.render bw2 (initState bw2) 1).width = 3 ∧
    (QuadModel.render bw2 (initState bw2) 1).width ≠ (bw2.width : ℤ) * 1 := by
  have h1 : (QuadModel.render bw2 (initState bw2) 1).width =
      pyInt ((bw2.width : ℚ) * 1) + 1 := rfl
  have h2 : ((bw2.width : ℚ) * 1 : ℚ) = 2 := by
    rw [show bw2.width = 2 from rfl]
    norm_num
  have h3 : pyInt (2 : ℚ) = 2 := by
    rw [pyInt, if_pos (by norm_num), show (2 : ℚ) = ((2 : ℤ) : ℚ) from by norm_num,
      Int.floor_intCast]
  rw [h1, h2, h3, show (bw2.width : ℤ) = 2 from rfl]
  norm_num
